import Mathlib

/-!
Verification of the schema migration engine found in
`internal/infra/postgres/postgres.go`: migration discovery (directory
scan, name parsing, sorting), the migration ledger (the
`app_schema_migrations` table), and the applier (`RunMigrations`,
`applyPendingMigrations`, `applyMigration`).

Modelling choices.  File names are lists of characters.  SQL text is
opaque to the engine (it is executed verbatim and never inspected), so
SQL bodies are modelled as opaque tokens (natural numbers).  The
relational store is an explicit state (`Store`): the ledger rows, the
successfully executed migration bodies (the schema side effects), and a
clock supplying the store-assigned timestamps.  An environment (`Env`)
fixes the outcome of the three external operations the engine consumes:
reading a migration file, executing a statement batch, and inserting a
ledger row.  `log.Fatalf` (process abort) is modelled as an aborted run:
the returned flag is `false` and no further descriptor is touched.  Each
run also returns a trace of the store statements it attempted.
-/

namespace Migrations

/-- Decimal digit value of a character, as used by Go `strconv.Atoi`. -/
def digitVal (c : Char) : Option Nat :=
  if '0' ≤ c ∧ c ≤ '9' then some (c.toNat - '0'.toNat) else none

/-- Accumulating tail of a digit run. -/
def parseDigitsAux (acc : Nat) : List Char → Option Nat
  | [] => some acc
  | c :: cs =>
    match digitVal c with
    | some d => parseDigitsAux (acc * 10 + d) cs
    | none => none

/-- A nonempty run of decimal digits, read as a natural number. -/
def parseDigits : List Char → Option Nat
  | [] => none
  | c :: cs =>
    match digitVal c with
    | some d => parseDigitsAux d cs
    | none => none

/-- Largest value of Go's 64-bit `int`. -/
def int64Max : Int := 2 ^ 63 - 1

/-- Smallest value of Go's 64-bit `int`. -/
def int64Min : Int := -(2 ^ 63)

/-- Go `strconv.Atoi`: an optional sign followed by a nonempty digit
run, rejected when the value overflows a 64-bit `int`. -/
def atoi : List Char → Option Int
  | '+' :: rest =>
    (parseDigits rest).bind fun n =>
      if (n : Int) ≤ int64Max then some (n : Int) else none
  | '-' :: rest =>
    (parseDigits rest).bind fun n =>
      if int64Min ≤ -(n : Int) then some (-(n : Int)) else none
  | s =>
    (parseDigits s).bind fun n =>
      if (n : Int) ≤ int64Max then some (n : Int) else none

/-- Go `strings.SplitN(name, sep, 2)` on the underscore separator:
`none` when the separator does not occur (Go returns a single-element
slice, so `len(parts) < 2`), otherwise the pieces before and after the
first occurrence. -/
def splitOnce : List Char → Option (List Char × List Char)
  | [] => none
  | c :: cs =>
    if c = '_' then some ([], cs)
    else
      match splitOnce cs with
      | none => none
      | some (a, b) => some (c :: a, b)

/-- The recognized migration-file name ending, `.sql`. -/
def dotSql : List Char := ['.', 's', 'q', 'l']

/-- The constant migrations directory of `RunMigrations`. -/
def migrationsDir : List Char :=
  ['d', 'a', 't', 'a', 'b', 'a', 's', 'e', '/',
   'm', 'i', 'g', 'r', 'a', 't', 'i', 'o', 'n', 's']

/-- Go `filepath.Join dir name` for a plain directory and name. -/
def joinPath (dir name : List Char) : List Char := dir ++ '/' :: name

/-- One directory entry as reported by `ioutil.ReadDir`. -/
structure fileInfo where
  name : List Char
  isDir : Bool
deriving DecidableEq

/-- One discovered migration descriptor (`migrationFile` in the
source). -/
structure migrationFile where
  Version : Int
  Name : List Char
  Path : List Char
deriving DecidableEq

/-- Result of scanning one directory entry: kept as a descriptor,
skipped silently (directory or wrong ending), or skipped with a
diagnostic log line (missing or unparsable version piece). -/
inductive scanOutcome where
  | kept (m : migrationFile)
  | skippedSilently
  | skippedWithDiagnostic
deriving DecidableEq

/-- `toMigrationFile` from the source: directories and entries not
ending in `.sql` are skipped silently; names without an underscore, or
whose leading piece `strconv.Atoi` rejects, are skipped with a
diagnostic. -/
def toMigrationFile (dir : List Char) (f : fileInfo) : scanOutcome :=
  if f.isDir || !(dotSql.isSuffixOf f.name) then .skippedSilently
  else
    match splitOnce f.name with
    | none => .skippedWithDiagnostic
    | some (pre, _) =>
      match atoi pre with
      | none => .skippedWithDiagnostic
      | some v => .kept ⟨v, f.name, joinPath dir f.name⟩

/-- The descriptor of a scan outcome, when one was kept. -/
def keptOf : scanOutcome → Option migrationFile
  | .kept m => some m
  | _ => none

/-- Comparison used by the `sort.Slice` call: ascending `Version`. -/
def vle (a b : migrationFile) : Prop := a.Version ≤ b.Version

/-- Strict version order between descriptors. -/
def vlt (a b : migrationFile) : Prop := a.Version < b.Version

instance : DecidableRel vle := fun a b =>
  inferInstanceAs (Decidable (a.Version ≤ b.Version))

instance : DecidableRel vlt := fun a b =>
  inferInstanceAs (Decidable (a.Version < b.Version))

instance : IsTotal migrationFile vle :=
  ⟨fun a b => Int.le_total a.Version b.Version⟩

instance : IsTrans migrationFile vle :=
  ⟨fun _ _ _ h1 h2 => le_trans h1 h2⟩

instance : IsAntisymm migrationFile vlt :=
  ⟨fun _ _ h1 h2 => absurd (lt_trans h1 h2) (lt_irrefl _)⟩

/-- The `sort.Slice` call: sort descriptors ascending by version. -/
def sortByVersion (l : List migrationFile) : List migrationFile :=
  List.insertionSort vle l

/-- `loadMigrationFiles`: filter the directory listing through
`toMigrationFile`, then sort ascending by version. -/
def loadMigrationFiles (dir : List Char) (files : List fileInfo) :
    List migrationFile :=
  sortByVersion (files.filterMap fun f => keptOf (toMigrationFile dir f))

/-- One row of `app_schema_migrations`.  The `applied_at` column is
`NOT NULL DEFAULT NOW()`, so every row carries a timestamp. -/
structure ledgerEntry where
  version : Int
  applied_at : Nat
deriving DecidableEq

/-- The relational store: ledger rows, successfully executed migration
bodies (the schema effects), and the store clock. -/
structure Store where
  ledger : List ledgerEntry
  execs : List Nat
  time : Nat
deriving DecidableEq

/-- The versions recorded in the ledger, in insertion order. -/
def ledgerVersions (st : Store) : List Int :=
  st.ledger.map ledgerEntry.version

/-- `migrationAlreadyApplied`: the
`SELECT EXISTS(... WHERE version = $1)` point lookup. -/
def migrationAlreadyApplied (st : Store) (version : Int) : Bool :=
  decide (version ∈ ledgerVersions st)

/-- One store statement attempted by the engine. -/
inductive event where
  | ensureTable
  | execSQL (version : Int) (body : Nat)
  | recordVersion (version : Int)
deriving DecidableEq

/-- Outcomes of the external operations the engine consumes: file
reads, statement-batch execution, ledger-row insertion. -/
structure Env where
  fs : List Char → Option Nat
  execOk : Nat → Bool
  recordOk : Int → Bool

/-- `applyMigration`: read the file (fatal on error), execute the SQL
body (fatal on error), then insert the ledger row (fatal on error).
The trace lists each store statement attempted; the flag is `false`
when the run aborted via `log.Fatalf`. -/
def applyMigration (env : Env) (st : Store) (m : migrationFile) :
    List event × Store × Bool :=
  match env.fs m.Path with
  | none => ([], st, false)
  | some content =>
    if env.execOk content then
      if env.recordOk m.Version then
        ([event.execSQL m.Version content, event.recordVersion m.Version],
         { st with
             execs := st.execs ++ [content],
             ledger := st.ledger ++ [⟨m.Version, st.time⟩],
             time := st.time + 1 }, true)
      else
        ([event.execSQL m.Version content, event.recordVersion m.Version],
         { st with execs := st.execs ++ [content] }, false)
    else
      ([event.execSQL m.Version content], st, false)

/-- `applyPendingMigrations`: walk the sorted descriptors, skipping the
already-applied ones and aborting the whole run on the first failed
application. -/
def applyPendingMigrations (env : Env) :
    Store → List migrationFile → List event × Store × Bool
  | st, [] => ([], st, true)
  | st, m :: rest =>
    if migrationAlreadyApplied st m.Version then
      applyPendingMigrations env st rest
    else
      let r := applyMigration env st m
      if r.2.2 then
        let r2 := applyPendingMigrations env r.2.1 rest
        (r.1 ++ r2.1, r2.2.1, r2.2.2)
      else r

/-- `ensureMigrationsTable`: the idempotent
`CREATE TABLE IF NOT EXISTS app_schema_migrations` statement.  It never
changes existing rows. -/
def ensureMigrationsTable (st : Store) : List event × Store :=
  ([event.ensureTable], st)

/-- `RunMigrations`: ensure the ledger table, discover the descriptors
in the fixed migrations directory, and apply the pending ones. -/
def RunMigrations (env : Env) (files : List fileInfo) (st : Store) :
    List event × Store × Bool :=
  let e := ensureMigrationsTable st
  let migrations := loadMigrationFiles migrationsDir files
  let r := applyPendingMigrations env e.2 migrations
  (e.1 ++ r.1, r.2.1, r.2.2)

/-- How many migration-body executions for version `v` a trace holds. -/
def execCount (v : Int) (tr : List event) : Nat :=
  (tr.filter (fun e =>
    match e with
    | .execSQL w _ => w == v
    | _ => false)).length

/-- How many ledger-insert attempts for version `v` a trace holds. -/
def recordCount (v : Int) (tr : List event) : Nat :=
  (tr.filter (fun e =>
    match e with
    | .recordVersion w => w == v
    | _ => false)).length

/-! ## Helper lemmas about the ledger and the applier -/

theorem alreadyApplied_iff (st : Store) (v : Int) :
    migrationAlreadyApplied st v = true ↔ v ∈ ledgerVersions st := by
  simp [migrationAlreadyApplied]

theorem applyMigration_fs_none (env : Env) (st : Store) (m : migrationFile)
    (h : env.fs m.Path = none) :
    applyMigration env st m = ([], st, false) := by
  simp [applyMigration, h]

theorem applyMigration_exec_fail (env : Env) (st : Store) (m : migrationFile)
    (c : Nat) (h : env.fs m.Path = some c) (he : env.execOk c = false) :
    applyMigration env st m = ([event.execSQL m.Version c], st, false) := by
  simp [applyMigration, h, he]

theorem applyMigration_record_fail (env : Env) (st : Store) (m : migrationFile)
    (c : Nat) (h : env.fs m.Path = some c) (he : env.execOk c = true)
    (hr : env.recordOk m.Version = false) :
    applyMigration env st m =
      ([event.execSQL m.Version c, event.recordVersion m.Version],
       { st with execs := st.execs ++ [c] }, false) := by
  simp [applyMigration, h, he, hr]

theorem applyMigration_success (env : Env) (st : Store) (m : migrationFile)
    (c : Nat) (h : env.fs m.Path = some c) (he : env.execOk c = true)
    (hr : env.recordOk m.Version = true) :
    applyMigration env st m =
      ([event.execSQL m.Version c, event.recordVersion m.Version],
       { st with
           execs := st.execs ++ [c],
           ledger := st.ledger ++ [⟨m.Version, st.time⟩],
           time := st.time + 1 }, true) := by
  simp [applyMigration, h, he, hr]

theorem applyMigration_ok_inv (env : Env) (st : Store) (m : migrationFile)
    (hok : (applyMigration env st m).2.2 = true) :
    ∃ c, env.fs m.Path = some c ∧ env.execOk c = true ∧
      env.recordOk m.Version = true := by
  cases hfs : env.fs m.Path with
  | none => rw [applyMigration_fs_none env st m hfs] at hok; cases hok
  | some c =>
    cases he : env.execOk c with
    | false => rw [applyMigration_exec_fail env st m c hfs he] at hok; cases hok
    | true =>
      cases hr : env.recordOk m.Version with
      | false => rw [applyMigration_record_fail env st m c hfs he hr] at hok; cases hok
      | true => exact ⟨c, rfl, he, rfl⟩

theorem applyMigration_fail_ledger (env : Env) (st : Store) (m : migrationFile)
    (hok : (applyMigration env st m).2.2 = false) :
    (applyMigration env st m).2.1.ledger = st.ledger := by
  cases hfs : env.fs m.Path with
  | none => rw [applyMigration_fs_none env st m hfs]
  | some c =>
    cases he : env.execOk c with
    | false => rw [applyMigration_exec_fail env st m c hfs he]
    | true =>
      cases hr : env.recordOk m.Version with
      | false => rw [applyMigration_record_fail env st m c hfs he hr]
      | true => rw [applyMigration_success env st m c hfs he hr] at hok ⊢; cases hok

theorem applyMigration_ledger (env : Env) (st : Store) (m : migrationFile) :
    ∃ l, (applyMigration env st m).2.1.ledger = st.ledger ++ l := by
  cases hok : (applyMigration env st m).2.2 with
  | false => exact ⟨[], by rw [applyMigration_fail_ledger env st m hok, List.append_nil]⟩
  | true =>
    obtain ⟨c, hfs, he, hr⟩ := applyMigration_ok_inv env st m hok
    exact ⟨[⟨m.Version, st.time⟩], by rw [applyMigration_success env st m c hfs he hr]⟩

theorem pending_nil (env : Env) (st : Store) :
    applyPendingMigrations env st [] = ([], st, true) := rfl

theorem pending_cons_skip (env : Env) (st : Store) (m : migrationFile)
    (rest : List migrationFile)
    (h : migrationAlreadyApplied st m.Version = true) :
    applyPendingMigrations env st (m :: rest) =
      applyPendingMigrations env st rest := by
  simp [applyPendingMigrations, h]

theorem pending_cons_ok (env : Env) (st : Store) (m : migrationFile)
    (rest : List migrationFile)
    (h : migrationAlreadyApplied st m.Version = false)
    (hok : (applyMigration env st m).2.2 = true) :
    applyPendingMigrations env st (m :: rest) =
      ((applyMigration env st m).1 ++
        (applyPendingMigrations env (applyMigration env st m).2.1 rest).1,
       (applyPendingMigrations env (applyMigration env st m).2.1 rest).2.1,
       (applyPendingMigrations env (applyMigration env st m).2.1 rest).2.2) := by
  simp [applyPendingMigrations, h, hok]

theorem pending_cons_fail (env : Env) (st : Store) (m : migrationFile)
    (rest : List migrationFile)
    (h : migrationAlreadyApplied st m.Version = false)
    (hok : (applyMigration env st m).2.2 = false) :
    applyPendingMigrations env st (m :: rest) = applyMigration env st m := by
  simp [applyPendingMigrations, h, hok]

theorem pending_ledger_append (env : Env) :
    ∀ (ms : List migrationFile) (st : Store),
      ∃ l, (applyPendingMigrations env st ms).2.1.ledger = st.ledger ++ l := by
  intro ms
  induction ms with
  | nil => intro st; exact ⟨[], (List.append_nil _).symm⟩
  | cons m rest ih =>
    intro st
    cases h : migrationAlreadyApplied st m.Version with
    | true => rw [pending_cons_skip env st m rest h]; exact ih st
    | false =>
      cases hok : (applyMigration env st m).2.2 with
      | true =>
        rw [pending_cons_ok env st m rest h hok]
        obtain ⟨l1, hl1⟩ := applyMigration_ledger env st m
        obtain ⟨l2, hl2⟩ := ih (applyMigration env st m).2.1
        exact ⟨l1 ++ l2, by rw [hl2, hl1, List.append_assoc]⟩
      | false =>
        rw [pending_cons_fail env st m rest h hok]
        exact ⟨[], by rw [applyMigration_fail_ledger env st m hok, List.append_nil]⟩

theorem mem_ledger_pending (env : Env) (ms : List migrationFile) (st : Store)
    (v : Int) (hv : v ∈ ledgerVersions st) :
    v ∈ ledgerVersions (applyPendingMigrations env st ms).2.1 := by
  obtain ⟨l, hl⟩ := pending_ledger_append env ms st
  unfold ledgerVersions at hv ⊢
  rw [hl, List.map_append]
  exact List.mem_append_left _ hv

theorem pending_skip_all (env : Env) :
    ∀ (ms : List migrationFile) (st : Store),
      (∀ m ∈ ms, migrationAlreadyApplied st m.Version = true) →
      applyPendingMigrations env st ms = ([], st, true) := by
  intro ms
  induction ms with
  | nil => intro st _; rfl
  | cons m rest ih =>
    intro st h
    rw [pending_cons_skip env st m rest (h m (List.mem_cons_self m rest))]
    exact ih st fun x hx => h x (List.mem_cons_of_mem m hx)

theorem pending_success_mem (env : Env) :
    ∀ (ms : List migrationFile) (st : Store),
      (applyPendingMigrations env st ms).2.2 = true →
      ∀ m ∈ ms, m.Version ∈ ledgerVersions (applyPendingMigrations env st ms).2.1 := by
  intro ms
  induction ms with
  | nil => intro st _ m hm; cases hm
  | cons m rest ih =>
    intro st hs x hx
    cases h : migrationAlreadyApplied st m.Version with
    | true =>
      rw [pending_cons_skip env st m rest h] at hs ⊢
      rcases List.mem_cons.mp hx with rfl | hx'
      · exact mem_ledger_pending env rest st x.Version ((alreadyApplied_iff st x.Version).mp h)
      · exact ih st hs x hx'
    | false =>
      cases hok : (applyMigration env st m).2.2 with
      | true =>
        rw [pending_cons_ok env st m rest h hok] at hs ⊢
        obtain ⟨c, hfs, he, hr⟩ := applyMigration_ok_inv env st m hok
        rcases List.mem_cons.mp hx with rfl | hx'
        · refine mem_ledger_pending env rest _ x.Version ?_
          rw [applyMigration_success env st x c hfs he hr]
          unfold ledgerVersions
          simp
        · exact ih (applyMigration env st m).2.1 hs x hx'
      | false =>
        rw [pending_cons_fail env st m rest h hok] at hs
        rw [hok] at hs
        cases hs

theorem execCount_append (v : Int) (a b : List event) :
    execCount v (a ++ b) = execCount v a + execCount v b := by
  simp [execCount, List.filter_append]

theorem recordCount_append (v : Int) (a b : List event) :
    recordCount v (a ++ b) = recordCount v a + recordCount v b := by
  simp [recordCount, List.filter_append]

theorem applyMigration_count_ne (env : Env) (st : Store) (m : migrationFile)
    (v : Int) (hne : m.Version ≠ v) :
    execCount v (applyMigration env st m).1 = 0 ∧
    recordCount v (applyMigration env st m).1 = 0 := by
  have hb : (m.Version == v) = false := by
    exact beq_eq_false_iff_ne.mpr hne
  cases hfs : env.fs m.Path with
  | none => rw [applyMigration_fs_none env st m hfs]; exact ⟨rfl, rfl⟩
  | some c =>
    cases he : env.execOk c with
    | false =>
      rw [applyMigration_exec_fail env st m c hfs he]
      constructor <;> simp [execCount, recordCount, hb]
    | true =>
      cases hr : env.recordOk m.Version with
      | false =>
        rw [applyMigration_record_fail env st m c hfs he hr]
        constructor <;> simp [execCount, recordCount, hb]
      | true =>
        rw [applyMigration_success env st m c hfs he hr]
        constructor <;> simp [execCount, recordCount, hb]

theorem applyMigration_count_le (env : Env) (st : Store) (m : migrationFile)
    (v : Int) :
    execCount v (applyMigration env st m).1 ≤ 1 ∧
    recordCount v (applyMigration env st m).1 ≤ 1 := by
  cases hfs : env.fs m.Path with
  | none => rw [applyMigration_fs_none env st m hfs]; exact ⟨Nat.zero_le 1, Nat.zero_le 1⟩
  | some c =>
    cases he : env.execOk c with
    | false =>
      rw [applyMigration_exec_fail env st m c hfs he]
      constructor <;> cases hbv : m.Version == v <;>
        simp [execCount, recordCount, hbv]
    | true =>
      cases hr : env.recordOk m.Version with
      | false =>
        rw [applyMigration_record_fail env st m c hfs he hr]
        constructor <;> cases hbv : m.Version == v <;>
          simp [execCount, recordCount, hbv]
      | true =>
        rw [applyMigration_success env st m c hfs he hr]
        constructor <;> cases hbv : m.Version == v <;>
          simp [execCount, recordCount, hbv]

theorem pending_count_zero (env : Env) :
    ∀ (ms : List migrationFile) (st : Store) (v : Int),
      v ∈ ledgerVersions st →
      execCount v (applyPendingMigrations env st ms).1 = 0 ∧
      recordCount v (applyPendingMigrations env st ms).1 = 0 := by
  intro ms
  induction ms with
  | nil => intro st v _; exact ⟨rfl, rfl⟩
  | cons m rest ih =>
    intro st v hv
    cases h : migrationAlreadyApplied st m.Version with
    | true => rw [pending_cons_skip env st m rest h]; exact ih st v hv
    | false =>
      have hne : m.Version ≠ v := by
        intro hcon
        rw [hcon] at h
        rw [(alreadyApplied_iff st v).symm] at hv
        rw [h] at hv
        cases hv
      cases hok : (applyMigration env st m).2.2 with
      | true =>
        rw [pending_cons_ok env st m rest h hok]
        obtain ⟨hz1, hz2⟩ := applyMigration_count_ne env st m v hne
        obtain ⟨l, hl⟩ := applyMigration_ledger env st m
        have hv1 : v ∈ ledgerVersions (applyMigration env st m).2.1 := by
          unfold ledgerVersions at hv ⊢
          rw [hl, List.map_append]
          exact List.mem_append_left _ hv
        obtain ⟨hr1, hr2⟩ := ih (applyMigration env st m).2.1 v hv1
        constructor
        · rw [execCount_append, hz1, hr1]
        · rw [recordCount_append, hz2, hr2]
      | false =>
        rw [pending_cons_fail env st m rest h hok]
        exact applyMigration_count_ne env st m v hne

theorem pending_count_le_one (env : Env) :
    ∀ (ms : List migrationFile) (st : Store) (v : Int),
      execCount v (applyPendingMigrations env st ms).1 ≤ 1 ∧
      recordCount v (applyPendingMigrations env st ms).1 ≤ 1 := by
  intro ms
  induction ms with
  | nil => intro st v; exact ⟨Nat.zero_le 1, Nat.zero_le 1⟩
  | cons m rest ih =>
    intro st v
    cases h : migrationAlreadyApplied st m.Version with
    | true => rw [pending_cons_skip env st m rest h]; exact ih st v
    | false =>
      cases hok : (applyMigration env st m).2.2 with
      | false =>
        rw [pending_cons_fail env st m rest h hok]
        exact applyMigration_count_le env st m v
      | true =>
        rw [pending_cons_ok env st m rest h hok]
        by_cases hne : m.Version = v
        · obtain ⟨c, hfs, he, hr⟩ := applyMigration_ok_inv env st m hok
          have hv1 : v ∈ ledgerVersions (applyMigration env st m).2.1 := by
            rw [applyMigration_success env st m c hfs he hr]
            unfold ledgerVersions
            simp [hne.symm]
          obtain ⟨hr1, hr2⟩ := pending_count_zero env rest (applyMigration env st m).2.1 v hv1
          obtain ⟨ha1, ha2⟩ := applyMigration_count_le env st m v
          constructor
          · rw [execCount_append, hr1]; simpa using ha1
          · rw [recordCount_append, hr2]; simpa using ha2
        · obtain ⟨hz1, hz2⟩ := applyMigration_count_ne env st m v hne
          obtain ⟨hb1, hb2⟩ := ih (applyMigration env st m).2.1 v
          constructor
          · rw [execCount_append, hz1]; simpa using hb1
          · rw [recordCount_append, hz2]; simpa using hb2

theorem pending_new_version_executed (env : Env) :
    ∀ (ms : List migrationFile) (st : Store) (v : Int),
      v ∈ ledgerVersions (applyPendingMigrations env st ms).2.1 →
      v ∈ ledgerVersions st ∨
      ∃ b, event.execSQL v b ∈ (applyPendingMigrations env st ms).1 ∧
        env.execOk b = true := by
  intro ms
  induction ms with
  | nil => intro st v hv; exact Or.inl hv
  | cons m rest ih =>
    intro st v hv
    cases h : migrationAlreadyApplied st m.Version with
    | true =>
      rw [pending_cons_skip env st m rest h] at hv ⊢
      exact ih st v hv
    | false =>
      cases hok : (applyMigration env st m).2.2 with
      | false =>
        rw [pending_cons_fail env st m rest h hok] at hv
        unfold ledgerVersions at hv
        rw [applyMigration_fail_ledger env st m hok] at hv
        exact Or.inl hv
      | true =>
        rw [pending_cons_ok env st m rest h hok] at hv ⊢
        obtain ⟨c, hfs, he, hr⟩ := applyMigration_ok_inv env st m hok
        rcases ih (applyMigration env st m).2.1 v hv with hv1 | ⟨b, hb, hbe⟩
        · rw [applyMigration_success env st m c hfs he hr] at hv1
          unfold ledgerVersions at hv1
          simp only [List.map_append] at hv1
          rcases List.mem_append.mp hv1 with hv2 | hv3
          · exact Or.inl hv2
          · simp only [List.map_cons, List.map_nil, List.mem_singleton] at hv3
            refine Or.inr ⟨c, ?_, he⟩
            rw [applyMigration_success env st m c hfs he hr, hv3]
            exact List.mem_append_left _ (List.mem_cons_self _ _)
        · exact Or.inr ⟨b, List.mem_append_right _ hb, hbe⟩

theorem pending_cons_ok2 (env : Env) (st st2 : Store) (m : migrationFile)
    (rest : List migrationFile) (tr : List event)
    (h : migrationAlreadyApplied st m.Version = false)
    (ha : applyMigration env st m = (tr, st2, true)) :
    applyPendingMigrations env st (m :: rest) =
      (tr ++ (applyPendingMigrations env st2 rest).1,
       (applyPendingMigrations env st2 rest).2.1,
       (applyPendingMigrations env st2 rest).2.2) := by
  rw [pending_cons_ok env st m rest h (by rw [ha]), ha]

theorem pending_cons_fail2 (env : Env) (st st2 : Store) (m : migrationFile)
    (rest : List migrationFile) (tr : List event)
    (h : migrationAlreadyApplied st m.Version = false)
    (ha : applyMigration env st m = (tr, st2, false)) :
    applyPendingMigrations env st (m :: rest) = (tr, st2, false) := by
  rw [pending_cons_fail env st m rest h (by rw [ha]), ha]

/-! ## Helper lemmas about discovery -/

theorem keptOf_eq_some (o : scanOutcome) (m : migrationFile) :
    keptOf o = some m ↔ o = scanOutcome.kept m := by
  cases o <;> simp [keptOf]

theorem splitOnce_eq_none (l : List Char) (h : '_' ∉ l) : splitOnce l = none := by
  induction l with
  | nil => rfl
  | cons c cs ih =>
    have hc : ¬(c = '_') := fun hcon => h (hcon ▸ List.mem_cons_self c cs)
    have hcs : '_' ∉ cs := fun hm => h (List.mem_cons_of_mem c hm)
    simp [splitOnce, hc, ih hcs]

theorem sortByVersion_sorted (l : List migrationFile) :
    List.Sorted vle (sortByVersion l) :=
  List.sorted_insertionSort vle l

theorem sortByVersion_perm (l : List migrationFile) :
    List.Perm (sortByVersion l) l :=
  List.perm_insertionSort vle l

theorem sorted_strict_of_nodup (l : List migrationFile)
    (hs : List.Sorted vle l) (hnd : (l.map migrationFile.Version).Nodup) :
    List.Sorted vlt l := by
  have hne : List.Pairwise (fun a b : migrationFile => a.Version ≠ b.Version) l :=
    List.pairwise_map.mp hnd
  exact (hs.and hne).imp fun h => lt_of_le_of_ne h.1 h.2

/-! ## Concrete data used by the witnesses -/

/-- An environment in which every file read, SQL execution and ledger
insert succeeds; every file holds the opaque body `7`. -/
def envW : Env where
  fs := fun _ => some 7
  execOk := fun _ => true
  recordOk := fun _ => true

/-- An initially empty store. -/
def st0 : Store := ⟨[], [], 0⟩

/-- The directory entry `1_a.sql`. -/
def fileW1 : fileInfo := ⟨['1', '_', 'a', '.', 's', 'q', 'l'], false⟩

/-- The directory entry `2_b.sql`. -/
def fileW2 : fileInfo := ⟨['2', '_', 'b', '.', 's', 'q', 'l'], false⟩

/-- The descriptor discovered for `1_a.sql`. -/
def mfW1 : migrationFile :=
  ⟨1, fileW1.name, joinPath migrationsDir fileW1.name⟩

/-! ## The claims -/

/-- Claim C4: for well-formed migration file names with distinct parsed
versions, discovery returns the descriptors sorted strictly ascending by
version, and the returned sequence does not depend on the order in which
the filesystem lists the files. -/
theorem discovery_sorted (dir : List Char) (files files2 : List fileInfo)
    (hnd : ((files.filterMap fun f => keptOf (toMigrationFile dir f)).map
      migrationFile.Version).Nodup)
    (hperm : List.Perm files2 files) :
    List.Sorted vlt (loadMigrationFiles dir files) ∧
    loadMigrationFiles dir files2 = loadMigrationFiles dir files := by
  have hnd1 : ((loadMigrationFiles dir files).map migrationFile.Version).Nodup :=
    (List.Perm.nodup_iff ((sortByVersion_perm _).map _)).mpr hnd
  have hs1 : List.Sorted vlt (loadMigrationFiles dir files) :=
    sorted_strict_of_nodup _ (sortByVersion_sorted _) hnd1
  have hpf : List.Perm (files2.filterMap fun f => keptOf (toMigrationFile dir f))
      (files.filterMap fun f => keptOf (toMigrationFile dir f)) :=
    hperm.filterMap _
  have hperm2 : List.Perm (loadMigrationFiles dir files2) (loadMigrationFiles dir files) :=
    ((sortByVersion_perm _).trans hpf).trans (sortByVersion_perm _).symm
  have hnd2 : ((loadMigrationFiles dir files2).map migrationFile.Version).Nodup :=
    (List.Perm.nodup_iff (hperm2.map _)).mpr hnd1
  have hs2 : List.Sorted vlt (loadMigrationFiles dir files2) :=
    sorted_strict_of_nodup _ (sortByVersion_sorted _) hnd2
  exact ⟨hs1, List.eq_of_perm_of_sorted hperm2 hs2 hs1⟩

/-- Witness for `discovery_sorted`: the listing `1_a.sql`, `2_b.sql` in
both filesystem orders. -/
theorem discovery_sorted_witness :
    ((([fileW1, fileW2].filterMap fun f =>
        keptOf (toMigrationFile migrationsDir f)).map migrationFile.Version).Nodup) ∧
    (List.Sorted vlt (loadMigrationFiles migrationsDir [fileW1, fileW2]) ∧
      loadMigrationFiles migrationsDir [fileW2, fileW1] =
        loadMigrationFiles migrationsDir [fileW1, fileW2]) :=
  ⟨by decide, discovery_sorted migrationsDir [fileW1, fileW2] [fileW2, fileW1]
    (by decide) (List.Perm.swap fileW1 fileW2 [])⟩

/-- The directory entry `-1_init.sql`. -/
def fileNeg : fileInfo :=
  ⟨['-', '1', '_', 'i', 'n', 'i', 't', '.', 's', 'q', 'l'], false⟩

/-- Claim C5, as stated, fails on the code: `strconv.Atoi` accepts a
leading sign, so the file `-1_init.sql` is kept as a descriptor whose
version is the negative integer `-1` instead of being skipped. -/
theorem negative_version_kept :
    toMigrationFile migrationsDir fileNeg =
      scanOutcome.kept ⟨-1, fileNeg.name, joinPath migrationsDir fileNeg.name⟩ ∧
    (-1 : Int) < 0 := by decide

/-- Claim C5 (amended): every descriptor produced by discovery carries
the integer version `strconv.Atoi` parses from the piece of the name
before the first underscore — `Atoi` accepts an optional sign, so the
version may be negative; any `.sql` file whose leading piece `Atoi`
rejects is skipped with a diagnostic and excluded from the output. -/
theorem version_parsing (dir : List Char) (f : fileInfo) :
    (∀ m, toMigrationFile dir f = scanOutcome.kept m →
      ∃ pre rest, splitOnce f.name = some (pre, rest) ∧
        atoi pre = some m.Version) ∧
    (∀ pre rest, f.isDir = false → dotSql.isSuffixOf f.name = true →
      splitOnce f.name = some (pre, rest) → atoi pre = none →
      toMigrationFile dir f = scanOutcome.skippedWithDiagnostic) := by
  constructor
  · intro m h
    unfold toMigrationFile at h
    split at h
    · cases h
    · cases hsp : splitOnce f.name with
      | none => rw [hsp] at h; cases h
      | some pr =>
        obtain ⟨pre, rest⟩ := pr
        rw [hsp] at h
        dsimp only at h
        cases ha : atoi pre with
        | none => rw [ha] at h; cases h
        | some v =>
          rw [ha] at h
          cases h
          exact ⟨pre, rest, rfl, ha⟩
  · intro pre rest hd hs hsp ha
    simp [toMigrationFile, hd, hs, hsp, ha]

/-- Witness for `version_parsing` at the kept entry `1_a.sql` and the
rejected entry `x_a.sql`. -/
theorem version_parsing_witness :
    (∃ pre rest, splitOnce fileW1.name = some (pre, rest) ∧
      atoi pre = some mfW1.Version) ∧
    toMigrationFile migrationsDir ⟨['x', '_', 'a', '.', 's', 'q', 'l'], false⟩ =
      scanOutcome.skippedWithDiagnostic :=
  ⟨(version_parsing migrationsDir fileW1).1 mfW1 (by decide),
   (version_parsing migrationsDir ⟨['x', '_', 'a', '.', 's', 'q', 'l'], false⟩).2
     ['x'] ['a', '.', 's', 'q', 'l'] rfl (by decide) (by decide) (by decide)⟩

/-- Claim C6: discovery silently excludes directories and entries not
ending in `.sql`, excludes with a diagnostic any name without a valid
decimal piece before the first underscore, and no excluded entry ever
appears in the returned sequence; no such entry aborts the scan (the
scan is a total function of the listing). -/
theorem discovery_filtering (dir : List Char) (files : List fileInfo)
    (f : fileInfo) :
    (f.isDir = true ∨ dotSql.isSuffixOf f.name = false →
      toMigrationFile dir f = scanOutcome.skippedSilently) ∧
    (f.isDir = false → dotSql.isSuffixOf f.name = true →
      (splitOnce f.name = none ∨
        ∃ pre rest, splitOnce f.name = some (pre, rest) ∧ atoi pre = none) →
      toMigrationFile dir f = scanOutcome.skippedWithDiagnostic) ∧
    (∀ m ∈ loadMigrationFiles dir files, ∃ g ∈ files,
      toMigrationFile dir g = scanOutcome.kept m) := by
  refine ⟨?_, ?_, ?_⟩
  · rintro (h | h) <;> simp [toMigrationFile, h]
  · rintro hd hs (h | ⟨pre, rest, hsp, ha⟩)
    · simp [toMigrationFile, hd, hs, h]
    · simp [toMigrationFile, hd, hs, hsp, ha]
  · intro m hm
    have hm2 : m ∈ files.filterMap fun g => keptOf (toMigrationFile dir g) :=
      (sortByVersion_perm _).mem_iff.mp hm
    obtain ⟨g, hg, hk⟩ := List.mem_filterMap.mp hm2
    exact ⟨g, hg, (keptOf_eq_some _ m).mp hk⟩

/-- Witness for `discovery_filtering`: a subdirectory named `sub`, a
`readme.md`, and the malformed `x_a.sql` are all excluded from the
listing that keeps only `1_a.sql`. -/
theorem discovery_filtering_witness :
    toMigrationFile migrationsDir ⟨['s', 'u', 'b'], true⟩ =
      scanOutcome.skippedSilently ∧
    (∀ m ∈ loadMigrationFiles migrationsDir
        [⟨['s', 'u', 'b'], true⟩, fileW1,
         ⟨['r', 'e', 'a', 'd', 'm', 'e', '.', 'm', 'd'], false⟩],
      ∃ g ∈ ([⟨['s', 'u', 'b'], true⟩, fileW1,
         ⟨['r', 'e', 'a', 'd', 'm', 'e', '.', 'm', 'd'], false⟩] : List fileInfo),
        toMigrationFile migrationsDir g = scanOutcome.kept m) :=
  ⟨(discovery_filtering migrationsDir [] ⟨['s', 'u', 'b'], true⟩).1 (Or.inl rfl),
   (discovery_filtering migrationsDir
      [⟨['s', 'u', 'b'], true⟩, fileW1,
       ⟨['r', 'e', 'a', 'd', 'm', 'e', '.', 'm', 'd'], false⟩]
      ⟨['s', 'u', 'b'], true⟩).2.2⟩

/-- Claim C8: when every directory entry is filtered out (or the
directory is empty), discovery returns the empty sequence and the
applier run succeeds, its trace holding nothing beyond the idempotent
ledger-table creation, with the store unchanged. -/
theorem empty_discovery_noop (env : Env) (files : List fileInfo) (st : Store)
    (h : ∀ f ∈ files, keptOf (toMigrationFile migrationsDir f) = none) :
    loadMigrationFiles migrationsDir files = [] ∧
    RunMigrations env files st = ([event.ensureTable], st, true) := by
  have hl : loadMigrationFiles migrationsDir files = [] := by
    unfold loadMigrationFiles sortByVersion
    rw [List.filterMap_eq_nil_iff.mpr h]
    rfl
  refine ⟨hl, ?_⟩
  simp [RunMigrations, ensureMigrationsTable, hl, pending_nil]

/-- Witness for `empty_discovery_noop`: a listing holding only a
`readme.md`. -/
theorem empty_discovery_noop_witness :
    (∀ f ∈ ([⟨['r', 'e', 'a', 'd', 'm', 'e', '.', 'm', 'd'], false⟩] : List fileInfo),
      keptOf (toMigrationFile migrationsDir f) = none) ∧
    (loadMigrationFiles migrationsDir
        [⟨['r', 'e', 'a', 'd', 'm', 'e', '.', 'm', 'd'], false⟩] = [] ∧
      RunMigrations envW [⟨['r', 'e', 'a', 'd', 'm', 'e', '.', 'm', 'd'], false⟩] st0 =
        ([event.ensureTable], st0, true)) :=
  ⟨by decide, empty_discovery_noop envW
    [⟨['r', 'e', 'a', 'd', 'm', 'e', '.', 'm', 'd'], false⟩] st0 (by decide)⟩

/-- Claim C9: discovery keeps one descriptor per file even when several
files parse to the same version (multiplicities are preserved by the
sort), while in a single applier run at most one migration body is
executed and at most one ledger insert is attempted per distinct
version. -/
theorem duplicate_versions_once (dir : List Char) (files : List fileInfo)
    (env : Env) (st : Store) (ms : List migrationFile)
    (m : migrationFile) (v : Int) :
    (loadMigrationFiles dir files).count m =
      (files.filterMap fun f => keptOf (toMigrationFile dir f)).count m ∧
    execCount v (applyPendingMigrations env st ms).1 ≤ 1 ∧
    recordCount v (applyPendingMigrations env st ms).1 ≤ 1 :=
  ⟨(sortByVersion_perm _).count_eq m, pending_count_le_one env ms st v⟩

/-- Claim C10: a `.sql` file whose name holds no underscore at all, such
as `1.sql`, is excluded with a diagnostic even when the piece before the
ending is a valid number; it is never kept as a descriptor. -/
theorem no_separator_diagnostic (dir : List Char) (f : fileInfo)
    (hd : f.isDir = false) (hs : dotSql.isSuffixOf f.name = true)
    (hn : '_' ∉ f.name) :
    toMigrationFile dir f = scanOutcome.skippedWithDiagnostic ∧
    ∀ m, toMigrationFile dir f ≠ scanOutcome.kept m := by
  have hsp : splitOnce f.name = none := splitOnce_eq_none f.name hn
  have h : toMigrationFile dir f = scanOutcome.skippedWithDiagnostic := by
    simp [toMigrationFile, hd, hs, hsp]
  exact ⟨h, fun m hcon => by rw [h] at hcon; cases hcon⟩

/-- Witness for `no_separator_diagnostic` at the file `1.sql`. -/
theorem no_separator_diagnostic_witness :
    toMigrationFile migrationsDir ⟨['1', '.', 's', 'q', 'l'], false⟩ =
      scanOutcome.skippedWithDiagnostic ∧
    ∀ m, toMigrationFile migrationsDir ⟨['1', '.', 's', 'q', 'l'], false⟩ ≠
      scanOutcome.kept m :=
  no_separator_diagnostic migrationsDir ⟨['1', '.', 's', 'q', 'l'], false⟩
    rfl (by decide) (by decide)

/-- Claim C1: after a successful applier run, running it again against
the resulting store with the same directory listing reports every
discovered descriptor as already applied and skips it, so the second
run's trace is only the idempotent table creation — zero migration SQL
executions, zero ledger insertions — and the store is unchanged. -/
theorem second_run_is_noop (env : Env) (files : List fileInfo) (st : Store)
    (tr1 : List event) (st1 : Store)
    (h : RunMigrations env files st = (tr1, st1, true)) :
    (∀ m ∈ loadMigrationFiles migrationsDir files,
      migrationAlreadyApplied st1 m.Version = true) ∧
    RunMigrations env files st1 = ([event.ensureTable], st1, true) := by
  have hst : (applyPendingMigrations env st
      (loadMigrationFiles migrationsDir files)).2.1 = st1 := by
    have h2 := congrArg (fun p => p.2.1) h
    simpa [RunMigrations, ensureMigrationsTable] using h2
  have hok : (applyPendingMigrations env st
      (loadMigrationFiles migrationsDir files)).2.2 = true := by
    have h2 := congrArg (fun p => p.2.2) h
    simpa [RunMigrations, ensureMigrationsTable] using h2
  have hall : ∀ m ∈ loadMigrationFiles migrationsDir files,
      migrationAlreadyApplied st1 m.Version = true := by
    intro m hm
    refine (alreadyApplied_iff st1 m.Version).mpr ?_
    rw [← hst]
    exact pending_success_mem env _ st hok m hm
  refine ⟨hall, ?_⟩
  simp [RunMigrations, ensureMigrationsTable,
    pending_skip_all env (loadMigrationFiles migrationsDir files) st1 hall]

/-- Witness for `second_run_is_noop`: the listing `1_a.sql` over the
empty store, whose first run applies and records version 1. -/
theorem second_run_is_noop_witness :
    RunMigrations envW [fileW1] st0 =
      ([event.ensureTable, event.execSQL 1 7, event.recordVersion 1],
       ⟨[⟨1, 0⟩], [7], 1⟩, true) ∧
    ((∀ m ∈ loadMigrationFiles migrationsDir [fileW1],
        migrationAlreadyApplied (⟨[⟨1, 0⟩], [7], 1⟩ : Store) m.Version = true) ∧
      RunMigrations envW [fileW1] (⟨[⟨1, 0⟩], [7], 1⟩ : Store) =
        ([event.ensureTable], ⟨[⟨1, 0⟩], [7], 1⟩, true)) :=
  ⟨by decide, second_run_is_noop envW [fileW1] st0
    [event.ensureTable, event.execSQL 1 7, event.recordVersion 1]
    ⟨[⟨1, 0⟩], [7], 1⟩ (by decide)⟩

theorem pending_append (env : Env) :
    ∀ (ms1 ms2 : List migrationFile) (st : Store),
      (applyPendingMigrations env st ms1).2.2 = true →
      applyPendingMigrations env st (ms1 ++ ms2) =
        ((applyPendingMigrations env st ms1).1 ++
          (applyPendingMigrations env
            (applyPendingMigrations env st ms1).2.1 ms2).1,
         (applyPendingMigrations env
            (applyPendingMigrations env st ms1).2.1 ms2).2.1,
         (applyPendingMigrations env
            (applyPendingMigrations env st ms1).2.1 ms2).2.2) := by
  intro ms1
  induction ms1 with
  | nil => intro ms2 st _; rfl
  | cons m rest ih =>
    intro ms2 st hs
    cases h : migrationAlreadyApplied st m.Version with
    | true =>
      rw [pending_cons_skip env st m rest h] at hs
      rw [List.cons_append, pending_cons_skip env st m (rest ++ ms2) h,
        pending_cons_skip env st m rest h]
      exact ih ms2 st hs
    | false =>
      cases hok : (applyMigration env st m).2.2 with
      | false =>
        rw [pending_cons_fail env st m rest h hok, hok] at hs
        cases hs
      | true =>
        rw [pending_cons_ok env st m rest h hok] at hs
        rw [List.cons_append, pending_cons_ok env st m (rest ++ ms2) h hok,
          pending_cons_ok env st m rest h hok]
        rw [ih ms2 (applyMigration env st m).2.1 hs]
        simp [List.append_assoc]

/-- Claim C2: over descriptors with versions 1, 2, 3 where the body of
version 2 fails to execute, the applier applies and records 1, aborts on
2, and never attempts 3: the trace ends at the failed execution of 2,
the ledger afterwards holds version 1 only, and no event of version 3
exists.  In general, any failure of a pending application — file read,
body execution, or ledger recording — aborts the entire run immediately:
a run whose successful portion reaches a descriptor whose application
fails returns exactly the events up to and including that failure, with
no subsequent descriptor attempted, whatever its position or the length
of the remainder; a failed ledger insert alone likewise ends the run at
that descriptor. -/
theorem applier_fail_fast (env : Env) (m1 m2 m3 : migrationFile) (st : Store)
    (c1 c2 : Nat)
    (hv1 : m1.Version = 1) (hv2 : m2.Version = 2) (hv3 : m3.Version = 3)
    (hled : st.ledger = [])
    (hf1 : env.fs m1.Path = some c1) (hf2 : env.fs m2.Path = some c2)
    (he1 : env.execOk c1 = true) (hr1 : env.recordOk 1 = true)
    (he2 : env.execOk c2 = false) :
    applyPendingMigrations env st [m1, m2, m3] =
      ([event.execSQL 1 c1, event.recordVersion 1, event.execSQL 2 c2],
       { st with ledger := [⟨1, st.time⟩], execs := st.execs ++ [c1],
                 time := st.time + 1 }, false) ∧
    ledgerVersions (applyPendingMigrations env st [m1, m2, m3]).2.1 = [1] ∧
    execCount m3.Version (applyPendingMigrations env st [m1, m2, m3]).1 = 0 ∧
    (∀ (env2 : Env) (st2 : Store) (m : migrationFile)
        (rest : List migrationFile),
      migrationAlreadyApplied st2 m.Version = false →
      (applyMigration env2 st2 m).2.2 = false →
      applyPendingMigrations env2 st2 (m :: rest) = applyMigration env2 st2 m) ∧
    (∀ (env2 : Env) (st2 : Store) (ms : List migrationFile)
        (m : migrationFile) (rest : List migrationFile),
      (applyPendingMigrations env2 st2 ms).2.2 = true →
      migrationAlreadyApplied
        (applyPendingMigrations env2 st2 ms).2.1 m.Version = false →
      (applyMigration env2 (applyPendingMigrations env2 st2 ms).2.1 m).2.2 = false →
      applyPendingMigrations env2 st2 (ms ++ m :: rest) =
        ((applyPendingMigrations env2 st2 ms).1 ++
          (applyMigration env2 (applyPendingMigrations env2 st2 ms).2.1 m).1,
         (applyMigration env2 (applyPendingMigrations env2 st2 ms).2.1 m).2.1,
         false)) ∧
    (∀ (env2 : Env) (st2 : Store) (m : migrationFile)
        (rest : List migrationFile) (c : Nat),
      migrationAlreadyApplied st2 m.Version = false →
      env2.fs m.Path = some c → env2.execOk c = true →
      env2.recordOk m.Version = false →
      applyPendingMigrations env2 st2 (m :: rest) =
        ([event.execSQL m.Version c, event.recordVersion m.Version],
         { st2 with execs := st2.execs ++ [c] }, false)) := by
  have hr1m : env.recordOk m1.Version = true := by rw [hv1]; exact hr1
  have ha1 := applyMigration_success env st m1 c1 hf1 he1 hr1m
  have h1 : migrationAlreadyApplied st m1.Version = false := by
    simp [migrationAlreadyApplied, ledgerVersions, hled]
  rw [hled] at ha1
  have h2 : migrationAlreadyApplied
      { st with execs := st.execs ++ [c1],
                ledger := [] ++ [⟨m1.Version, st.time⟩],
                time := st.time + 1 } m2.Version = false := by
    simp [migrationAlreadyApplied, ledgerVersions, hv1, hv2]
  have ha2 := applyMigration_exec_fail env
    { st with execs := st.execs ++ [c1],
              ledger := [] ++ [⟨m1.Version, st.time⟩],
              time := st.time + 1 } m2 c2 hf2 he2
  have hmain : applyPendingMigrations env st [m1, m2, m3] =
      ([event.execSQL m1.Version c1, event.recordVersion m1.Version,
        event.execSQL m2.Version c2],
       { st with execs := st.execs ++ [c1],
                 ledger := [] ++ [⟨m1.Version, st.time⟩],
                 time := st.time + 1 }, false) := by
    rw [pending_cons_ok2 env st _ m1 [m2, m3]
      [event.execSQL m1.Version c1, event.recordVersion m1.Version] h1 ha1]
    rw [pending_cons_fail2 env _ _ m2 [m3] [event.execSQL m2.Version c2] h2 ha2]
    rfl
  rw [hmain]
  refine ⟨?_, ?_, ?_, ?_, ?_, ?_⟩
  · simp [hv1, hv2]
  · simp [ledgerVersions, hv1]
  · simp [execCount, hv1, hv2, hv3]
  · exact fun env2 st2 m rest hna hok => pending_cons_fail env2 st2 m rest hna hok
  · intro env2 st2 ms m rest hpre hna hok
    rw [pending_append env2 ms (m :: rest) st2 hpre]
    rw [pending_cons_fail env2 _ m rest hna hok]
    rw [hok]
  · intro env2 st2 m rest c hna hf he hrec
    exact pending_cons_fail2 env2 st2 _ m rest _ hna
      (applyMigration_record_fail env2 st2 m c hf he hrec)

/-- A file-read oracle for the three-descriptor scenarios: body `1` for
version 1's path, body `2` for version 2's, body `3` for version 3's. -/
def fs3 : List Char → Option Nat := fun p =>
  if p = joinPath migrationsDir ['1', '_', 'a', '.', 's', 'q', 'l'] then some 1
  else if p = joinPath migrationsDir ['2', '_', 'b', '.', 's', 'q', 'l'] then some 2
  else if p = joinPath migrationsDir ['3', '_', 'c', '.', 's', 'q', 'l'] then some 3
  else none

/-- The descriptor discovered for `2_b.sql`. -/
def mfW2 : migrationFile :=
  ⟨2, fileW2.name, joinPath migrationsDir fileW2.name⟩

/-- The directory entry `3_c.sql`. -/
def fileW3 : fileInfo := ⟨['3', '_', 'c', '.', 's', 'q', 'l'], false⟩

/-- The descriptor discovered for `3_c.sql`. -/
def mfW3 : migrationFile :=
  ⟨3, fileW3.name, joinPath migrationsDir fileW3.name⟩

/-- An environment in which version 2's body (the opaque body `2`)
fails to execute and everything else succeeds. -/
def envFail2 : Env where
  fs := fs3
  execOk := fun c => !(c == 2)
  recordOk := fun _ => true

/-- Witness for `applier_fail_fast`: descriptors of `1_a.sql`, `2_b.sql`
and `3_c.sql` over the empty store, with body 2 failing. -/
theorem applier_fail_fast_witness :
    applyPendingMigrations envFail2 st0 [mfW1, mfW2, mfW3] =
      ([event.execSQL 1 1, event.recordVersion 1, event.execSQL 2 2],
       { st0 with ledger := [⟨1, st0.time⟩], execs := st0.execs ++ [1],
                  time := st0.time + 1 }, false) ∧
    ledgerVersions (applyPendingMigrations envFail2 st0 [mfW1, mfW2, mfW3]).2.1 = [1] ∧
    execCount mfW3.Version (applyPendingMigrations envFail2 st0 [mfW1, mfW2, mfW3]).1 = 0 ∧
    (∀ (env2 : Env) (st2 : Store) (m : migrationFile)
        (rest : List migrationFile),
      migrationAlreadyApplied st2 m.Version = false →
      (applyMigration env2 st2 m).2.2 = false →
      applyPendingMigrations env2 st2 (m :: rest) = applyMigration env2 st2 m) ∧
    (∀ (env2 : Env) (st2 : Store) (ms : List migrationFile)
        (m : migrationFile) (rest : List migrationFile),
      (applyPendingMigrations env2 st2 ms).2.2 = true →
      migrationAlreadyApplied
        (applyPendingMigrations env2 st2 ms).2.1 m.Version = false →
      (applyMigration env2 (applyPendingMigrations env2 st2 ms).2.1 m).2.2 = false →
      applyPendingMigrations env2 st2 (ms ++ m :: rest) =
        ((applyPendingMigrations env2 st2 ms).1 ++
          (applyMigration env2 (applyPendingMigrations env2 st2 ms).2.1 m).1,
         (applyMigration env2 (applyPendingMigrations env2 st2 ms).2.1 m).2.1,
         false)) ∧
    (∀ (env2 : Env) (st2 : Store) (m : migrationFile)
        (rest : List migrationFile) (c : Nat),
      migrationAlreadyApplied st2 m.Version = false →
      env2.fs m.Path = some c → env2.execOk c = true →
      env2.recordOk m.Version = false →
      applyPendingMigrations env2 st2 (m :: rest) =
        ([event.execSQL m.Version c, event.recordVersion m.Version],
         { st2 with execs := st2.execs ++ [c] }, false)) :=
  applier_fail_fast envFail2 mfW1 mfW2 mfW3 st0 1 2
    rfl rfl rfl rfl (by decide) (by decide) (by decide) rfl (by decide)

/-- Ledger rows inserted for a run of consecutive successful
applications starting at clock value `t`. -/
def timestamped : List migrationFile → Nat → List ledgerEntry
  | [], _ => []
  | m :: rest, t => ⟨m.Version, t⟩ :: timestamped rest (t + 1)

theorem pending_success_ledger (env : Env) :
    ∀ (ms : List migrationFile) (st : Store),
      (∀ m ∈ ms, ∃ c, env.fs m.Path = some c ∧ env.execOk c = true) →
      (∀ m ∈ ms, env.recordOk m.Version = true) →
      (∀ m ∈ ms, m.Version ∉ ledgerVersions st) →
      (ms.map migrationFile.Version).Nodup →
      (applyPendingMigrations env st ms).2.2 = true ∧
      (applyPendingMigrations env st ms).2.1.ledger =
        st.ledger ++ timestamped ms st.time := by
  intro ms
  induction ms with
  | nil => intro st _ _ _ _; exact ⟨rfl, by simp [timestamped, pending_nil]⟩
  | cons m rest ih =>
    intro st hfs hrec hnotin hnd
    obtain ⟨c, hc, he⟩ := hfs m (List.mem_cons_self m rest)
    have hnotapp : migrationAlreadyApplied st m.Version = false := by
      unfold migrationAlreadyApplied
      rw [decide_eq_false_iff_not]
      exact hnotin m (List.mem_cons_self m rest)
    have ha := applyMigration_success env st m c hc he
      (hrec m (List.mem_cons_self m rest))
    rw [pending_cons_ok2 env st _ m rest _ hnotapp ha]
    have ihres := ih
      { st with execs := st.execs ++ [c],
                ledger := st.ledger ++ [⟨m.Version, st.time⟩],
                time := st.time + 1 }
      (fun x hx => hfs x (List.mem_cons_of_mem m hx))
      (fun x hx => hrec x (List.mem_cons_of_mem m hx))
      (by
        intro x hx
        have h1 : x.Version ∉ ledgerVersions st :=
          hnotin x (List.mem_cons_of_mem m hx)
        have h2 : x.Version ≠ m.Version := by
          intro hcon
          exact (List.nodup_cons.mp hnd).1
            (hcon ▸ List.mem_map_of_mem migrationFile.Version hx)
        simp only [ledgerVersions] at h1 ⊢
        simp [List.mem_append, h1, h2])
      (List.nodup_cons.mp hnd).2
    refine ⟨ihres.1, ?_⟩
    rw [ihres.2]
    simp [timestamped]

/-- Claim C3: after a successful run over descriptors with versions 1,
2, 3 against an initially empty ledger, the ledger holds exactly
versions 1, 2, 3, each row carrying its store-assigned timestamp; in
general, any run only ever appends to the ledger, a version newly
present afterwards had its body executed successfully during that run,
and a version already present is never re-executed. -/
theorem ledger_exact_after_success (env : Env) (m1 m2 m3 : migrationFile)
    (st : Store) (c1 c2 c3 : Nat)
    (hv1 : m1.Version = 1) (hv2 : m2.Version = 2) (hv3 : m3.Version = 3)
    (hled : st.ledger = [])
    (hf1 : env.fs m1.Path = some c1) (hf2 : env.fs m2.Path = some c2)
    (hf3 : env.fs m3.Path = some c3)
    (he1 : env.execOk c1 = true) (he2 : env.execOk c2 = true)
    (he3 : env.execOk c3 = true)
    (hr1 : env.recordOk 1 = true) (hr2 : env.recordOk 2 = true)
    (hr3 : env.recordOk 3 = true) :
    (applyPendingMigrations env st [m1, m2, m3]).2.2 = true ∧
    (applyPendingMigrations env st [m1, m2, m3]).2.1.ledger =
      [⟨1, st.time⟩, ⟨2, st.time + 1⟩, ⟨3, st.time + 2⟩] ∧
    ledgerVersions (applyPendingMigrations env st [m1, m2, m3]).2.1 = [1, 2, 3] ∧
    (∀ (env2 : Env) (st2 : Store) (ms : List migrationFile),
      ∃ l, (applyPendingMigrations env2 st2 ms).2.1.ledger = st2.ledger ++ l) ∧
    (∀ (env2 : Env) (st2 : Store) (ms : List migrationFile) (v : Int),
      v ∈ ledgerVersions (applyPendingMigrations env2 st2 ms).2.1 →
      v ∈ ledgerVersions st2 ∨
      ∃ b, event.execSQL v b ∈ (applyPendingMigrations env2 st2 ms).1 ∧
        env2.execOk b = true) ∧
    (∀ (env2 : Env) (st2 : Store) (ms : List migrationFile) (v : Int),
      v ∈ ledgerVersions st2 →
      execCount v (applyPendingMigrations env2 st2 ms).1 = 0) := by
  have hmain := pending_success_ledger env [m1, m2, m3] st
    (by
      intro m hm
      simp only [List.mem_cons, List.not_mem_nil, or_false] at hm
      rcases hm with rfl | rfl | rfl
      · exact ⟨c1, hf1, he1⟩
      · exact ⟨c2, hf2, he2⟩
      · exact ⟨c3, hf3, he3⟩)
    (by
      intro m hm
      simp only [List.mem_cons, List.not_mem_nil, or_false] at hm
      rcases hm with rfl | rfl | rfl
      · rw [hv1]; exact hr1
      · rw [hv2]; exact hr2
      · rw [hv3]; exact hr3)
    (by
      intro m hm
      simp [ledgerVersions, hled])
    (by simp [hv1, hv2, hv3])
  have hledg : (applyPendingMigrations env st [m1, m2, m3]).2.1.ledger =
      [⟨1, st.time⟩, ⟨2, st.time + 1⟩, ⟨3, st.time + 2⟩] := by
    rw [hmain.2, hled]
    simp [timestamped, hv1, hv2, hv3]
  refine ⟨hmain.1, hledg, ?_, ?_, ?_, ?_⟩
  · rw [ledgerVersions, hledg]
    rfl
  · exact fun env2 st2 ms => pending_ledger_append env2 ms st2
  · exact fun env2 st2 ms v => pending_new_version_executed env2 ms st2 v
  · exact fun env2 st2 ms v hv => (pending_count_zero env2 ms st2 v hv).1

/-- Witness for `ledger_exact_after_success`: the three descriptors of
`1_a.sql`, `2_b.sql`, `3_c.sql` over the empty store, all succeeding
with body `7`. -/
theorem ledger_exact_after_success_witness :
    (applyPendingMigrations envW st0 [mfW1, mfW2, mfW3]).2.2 = true ∧
    (applyPendingMigrations envW st0 [mfW1, mfW2, mfW3]).2.1.ledger =
      [⟨1, st0.time⟩, ⟨2, st0.time + 1⟩, ⟨3, st0.time + 2⟩] ∧
    ledgerVersions (applyPendingMigrations envW st0 [mfW1, mfW2, mfW3]).2.1 =
      [1, 2, 3] ∧
    (∀ (env2 : Env) (st2 : Store) (ms : List migrationFile),
      ∃ l, (applyPendingMigrations env2 st2 ms).2.1.ledger = st2.ledger ++ l) ∧
    (∀ (env2 : Env) (st2 : Store) (ms : List migrationFile) (v : Int),
      v ∈ ledgerVersions (applyPendingMigrations env2 st2 ms).2.1 →
      v ∈ ledgerVersions st2 ∨
      ∃ b, event.execSQL v b ∈ (applyPendingMigrations env2 st2 ms).1 ∧
        env2.execOk b = true) ∧
    (∀ (env2 : Env) (st2 : Store) (ms : List migrationFile) (v : Int),
      v ∈ ledgerVersions st2 →
      execCount v (applyPendingMigrations env2 st2 ms).1 = 0) :=
  ledger_exact_after_success envW mfW1 mfW2 mfW3 st0 7 7 7
    rfl rfl rfl rfl rfl rfl rfl rfl rfl rfl rfl rfl rfl

/-- Claim C7: executing a descriptor's SQL body and recording its
version are two separate store statements, not one atomic unit: when the
body executes successfully but the ledger insert fails, the run aborts
with the schema changed (the body is among the executed statements)
while the ledger does not hold the version, so a later engine run sees
the version as not applied and executes the same body again. -/
theorem non_atomic_apply (env env2 : Env) (st : Store) (m : migrationFile)
    (c : Nat)
    (hfs : env.fs m.Path = some c) (he : env.execOk c = true)
    (hr : env.recordOk m.Version = false)
    (hnot : migrationAlreadyApplied st m.Version = false)
    (hf2 : env2.fs m.Path = some c) (he2 : env2.execOk c = true) :
    applyMigration env st m =
      ([event.execSQL m.Version c, event.recordVersion m.Version],
       { st with execs := st.execs ++ [c] }, false) ∧
    c ∈ ({ st with execs := st.execs ++ [c] } : Store).execs ∧
    migrationAlreadyApplied { st with execs := st.execs ++ [c] } m.Version = false ∧
    execCount m.Version
      (applyPendingMigrations env2 { st with execs := st.execs ++ [c] } [m]).1 = 1 := by
  have h1 := applyMigration_record_fail env st m c hfs he hr
  have hnot2 : migrationAlreadyApplied
      { st with execs := st.execs ++ [c] } m.Version = false := hnot
  refine ⟨h1, by simp, hnot2, ?_⟩
  cases hr2 : env2.recordOk m.Version with
  | true =>
    have ha := applyMigration_success env2
      { st with execs := st.execs ++ [c] } m c hf2 he2 hr2
    rw [pending_cons_ok2 env2 _ _ m [] _ hnot2 ha]
    simp [execCount, pending_nil]
  | false =>
    have ha := applyMigration_record_fail env2
      { st with execs := st.execs ++ [c] } m c hf2 he2 hr2
    rw [pending_cons_fail2 env2 _ _ m [] _ hnot2 ha]
    simp [execCount]

/-- An environment in which every ledger insert fails while reads and
executions succeed. -/
def envRecFail : Env where
  fs := fun _ => some 7
  execOk := fun _ => true
  recordOk := fun _ => false

/-- Witness for `non_atomic_apply`: descriptor of `1_a.sql` over the
empty store; the insert fails on the first run and the second run
(everything succeeding) executes body `7` again. -/
theorem non_atomic_apply_witness :
    applyMigration envRecFail st0 mfW1 =
      ([event.execSQL 1 7, event.recordVersion 1],
       { st0 with execs := st0.execs ++ [7] }, false) ∧
    (7 : Nat) ∈ ({ st0 with execs := st0.execs ++ [7] } : Store).execs ∧
    migrationAlreadyApplied { st0 with execs := st0.execs ++ [7] } mfW1.Version = false ∧
    execCount mfW1.Version
      (applyPendingMigrations envW { st0 with execs := st0.execs ++ [7] } [mfW1]).1 = 1 :=
  non_atomic_apply envRecFail envW st0 mfW1 7 rfl rfl rfl rfl rfl rfl

end Migrations
